import Mathlib

/-!
Verification of the Tender chunked magnitude-decomposition quantizer
(src/tender/models/modeling_llama_tender_eval.py).

Tensors are modelled as lists of rationals (a 2-D tensor is a list of rows,
each row a list of channel values).  Floating-point arithmetic is idealised
as exact rational arithmetic; torch.round (round to nearest, ties to even)
is modelled by `roundEven`.  A failing python assert is modelled by `none`.
-/

namespace Tender

/-- Round to nearest, ties to even: the rounding mode of torch.round. -/
def roundEven (q : ℚ) : ℤ :=
  if q - (⌊q⌋ : ℚ) < 1 / 2 then ⌊q⌋
  else if 1 / 2 < q - (⌊q⌋ : ℚ) then ⌊q⌋ + 1
  else if ⌊q⌋ % 2 = 0 then ⌊q⌋ else ⌊q⌋ + 1

/-- The epsilon used in sym_quant: torch.clamp(scale.abs(), min = 1e-9). -/
def eps : ℚ := 1 / 10 ^ 9

/-- torch.clamp(x, min = lo, max = hi). -/
def clampQ (x lo hi : ℚ) : ℚ := min (max x lo) hi

/-- Integer clamp, used to express that quantized values are integers. -/
def clampZ (x lo hi : ℤ) : ℤ := min (max x lo) hi

/-- q_max = 2 ** (q_bits - 1) - 1 as a rational. -/
def qMaxQ (qBits : ℕ) : ℚ := 2 ^ (qBits - 1) - 1

/-- Elementwise core of sym_quant (modeling_llama_tender_eval.py lines 52-66):
the scale is replaced by max(|scale|, 1e-9), the value divided, rounded
(ties to even) and clamped to [-(q_max+1), q_max]. -/
def symQuant1 (fp scale : ℚ) (qBits : ℕ) : ℚ :=
  clampQ ((roundEven (fp / max |scale| eps) : ℤ) : ℚ) (-(qMaxQ qBits + 1)) (qMaxQ qBits)

/-- sym_quant with a tensor scale (lines 52-66): the assert
`torch.sum(scale == 0.0).item() == 0.0` is modelled by returning `none`
when some scale entry is zero. -/
def sym_quant (fp scale : List ℚ) (qBits : ℕ) : Option (List ℚ) :=
  if scale.any (fun v => decide (v = 0)) then none
  else some (List.zipWith (fun a c => symQuant1 a c qBits) fp scale)

/-- sym_dequant (lines 68-73): q_int * scale, multiplying by the original
signed scale. -/
def sym_dequant (qInt scale : List ℚ) : List ℚ :=
  List.zipWith (fun a c => a * c) qInt scale

/-- Modelled from the spec (section 4.1), for the C3 refinement comparison:
quantize computes round(x/scale) (the raw, signed, unclamped scale) and
clamps to the signed range, failing when some scale entry is zero. -/
def spec_sym_quant (fp scale : List ℚ) (qBits : ℕ) : Option (List ℚ) :=
  if scale.any (fun v => decide (v = 0)) then none
  else some (List.zipWith
    (fun a c => clampQ ((roundEven (a / c) : ℤ) : ℚ) (-(qMaxQ qBits + 1)) (qMaxQ qBits))
    fp scale)

/-- Composition dequantize(quantize(x, s, b), s): the lossy projection of
spec section 4.1. -/
def quantDequant (x s : List ℚ) (b : ℕ) : Option (List ℚ) :=
  (sym_quant x s b).map (fun q => sym_dequant q s)

/-- Tensor dtypes relevant to the quantizer. -/
inductive DType where
  | float16
  | bfloat16
  | float32
  | float64
deriving DecidableEq

/-- A tensor together with its dtype tag (values idealised as rationals). -/
structure QTensor where
  data : List ℚ
  dtype : DType

/-- sym_quant with dtype tracking: fp and scale are cast to float32 before
computing, so the result dtype is float32 whatever the inputs were. -/
def sym_quant_t (fp scale : QTensor) (qBits : ℕ) : Option QTensor :=
  if scale.data.any (fun v => decide (v = 0)) then none
  else some ⟨List.zipWith (fun a c => symQuant1 a c qBits) fp.data scale.data, DType.float32⟩

/-- sym_dequant with dtype tracking: q_int * scale cast to the target dtype. -/
def sym_dequant_t (qInt scale : QTensor) (dt : DType) : QTensor :=
  ⟨List.zipWith (fun a c => a * c) qInt.data scale.data, dt⟩

/-! The decomposition quantizer.  A 2-D tensor is a list of rows, each row a
list of channel values; the chunked tensor is a list of chunks, each chunk a
list of rows.  The three call sites (Q times K transposed, S times V, LM
head) run the same per-chunk computation, differing in the band-boundary
policy and in the leading batch-by-head dimension. -/

/-- chunks = math.ceil(rows / chunk_size). -/
def ceil_div (a b : ℕ) : ℕ := (a + b - 1) / b

/-- Maximum absolute value of a row (0 for an empty row). -/
def rowMaxAbs (r : List ℚ) : ℚ := r.foldr (fun x m => max |x| m) 0

/-- chunk_tensor_max: maximum absolute value over a whole chunk, e.g.
torch.max(torch.abs(hidden_chunks), dim = -1) then dim = -1 again. -/
def chunkTmax (ch : List (List ℚ)) : ℚ := ch.foldr (fun r m => max (rowMaxAbs r) m) 0

/-- chunk_channel_max: maximum absolute value of channel j over the rows of
a chunk, torch.max(torch.abs(hidden_chunks), dim = -2). -/
def chunkCmax (ch : List (List ℚ)) (j : ℕ) : ℚ :=
  ch.foldr (fun r m => max |r.getD j 0| m) 0

/-- thresholds[i] = chunk_tensor_max / 2 ** (decomp_factor - 1 - i). -/
def threshold (tm : ℚ) (D i : ℕ) : ℚ := tm / 2 ^ (D - 1 - i)

/-- Band boundary policy.  The query path (lines 749-756) has no closing
"else" band; the attention-score path (lines 846-855) and the LM head
(lines 1564-1570) give the last band everything above the previous
threshold. -/
inductive BandPolicy where
  | noElse
  | closedTop
deriving DecidableEq

/-- The channel mask of band i, as a function of the chunk statistics:
band 0 takes m <= thresholds[0]; a middle band takes
thresholds[i-1] < m <= thresholds[i]; under the closedTop policy the last
band takes thresholds[i-1] < m. -/
def bandMask (p : BandPolicy) (D i : ℕ) (tm m : ℚ) : Bool :=
  match p with
  | BandPolicy.noElse =>
    if i = 0 then decide (m ≤ threshold tm D 0)
    else decide (threshold tm D (i - 1) < m) && decide (m ≤ threshold tm D i)
  | BandPolicy.closedTop =>
    if i = 0 then decide (m ≤ threshold tm D 0)
    else if i = D - 1 then decide (threshold tm D (i - 1) < m)
    else decide (threshold tm D (i - 1) < m) && decide (m ≤ threshold tm D i)

/-- Number of channels of one chunk selected by band i. -/
def chunkBandCount (p : BandPolicy) (D i nCh : ℕ) (ch : List (List ℚ)) : ℕ :=
  ((List.range nCh).filter (fun j => bandMask p D i (chunkTmax ch) (chunkCmax ch j))).length

/-- count[i] = torch.sum(mask).item() over all chunks of one slice. -/
def bandCount (p : BandPolicy) (D i nCh : ℕ) (cd : List (List (List ℚ))) : ℕ :=
  (cd.map (chunkBandCount p D i nCh)).sum

/-- sum(count) over all bands for one slice. -/
def countSum (p : BandPolicy) (D nCh : ℕ) (cd : List (List (List ℚ))) : ℕ :=
  ∑ i in Finset.range D, bandCount p D i nCh cd

/-- count[i] over all batch-by-head slices (torch.sum over the whole mask). -/
def pathBandCount (p : BandPolicy) (D i nCh : ℕ)
    (slices : List (List (List (List ℚ)))) : ℕ :=
  (slices.map (bandCount p D i nCh)).sum

/-- sum(count) over all bands for a multi-slice path. -/
def pathCountSum (p : BandPolicy) (D nCh : ℕ)
    (slices : List (List (List (List ℚ)))) : ℕ :=
  ∑ i in Finset.range D, pathBandCount p D i nCh slices

/-- scale = thresholds[i] / q_max for one chunk. -/
def bandScale (D i b : ℕ) (ch : List (List ℚ)) : ℚ :=
  threshold (chunkTmax ch) D i / qMaxQ b

/-- torch.where(mask, row, zero): entries of masked-out channels are set to
zero.  The first argument of the recursion is the current channel index. -/
def whereRow (mf : ℕ → Bool) : ℕ → List ℚ → List ℚ
  | _, [] => []
  | j, x :: xs => (if mf j then x else 0) :: whereRow mf (j + 1) xs

/-- One band contribution for one chunk:
sym_dequant(sym_quant(torch.where(mask, chunk, zero), scale), scale). -/
def bandChunk (p : BandPolicy) (D i b : ℕ) (ch : List (List ℚ)) : List (List ℚ) :=
  ch.map (fun r =>
    (whereRow (fun j => bandMask p D i (chunkTmax ch) (chunkCmax ch j)) 0 r).map
      (fun x => symQuant1 x (bandScale D i b ch) b * bandScale D i b ch))

/-- Elementwise sum of two chunks. -/
def addMat (a b : List (List ℚ)) : List (List ℚ) :=
  List.zipWith (List.zipWith (· + ·)) a b

/-- Elementwise sum of two chunked tensors (result += band contribution). -/
def addTen (a b : List (List (List ℚ))) : List (List (List ℚ)) :=
  List.zipWith addMat a b

/-- torch.zeros_like on a chunked tensor. -/
def zerosLike (t : List (List (List ℚ))) : List (List (List ℚ)) :=
  t.map (fun ch => ch.map (fun r => r.map (fun _ => (0 : ℚ))))

/-- The body of the band loop: a band with zero count is skipped; otherwise
sym_quant receives the per-chunk scale tensor and asserts that no entry is
zero (modelled by `none`); otherwise the dequantized contribution is added. -/
def decompStep (p : BandPolicy) (D b nCh : ℕ) (cd : List (List (List ℚ)))
    (acc : Option (List (List (List ℚ)))) (i : ℕ) : Option (List (List (List ℚ))) :=
  match acc with
  | none => none
  | some r =>
    if bandCount p D i nCh cd = 0 then some r
    else if cd.any (fun ch => decide (bandScale D i b ch = 0)) then none
    else some (addTen r (cd.map (bandChunk p D i b)))

/-- reshape(chunks, chunk_size, channels) of a padded row list. -/
def chunkRows : ℕ → ℕ → List (List ℚ) → List (List (List ℚ))
  | 0, _, _ => []
  | n + 1, cs, l => l.take cs :: chunkRows n cs (l.drop cs)

/-- Zero-padding of the row dimension up to the target row count. -/
def padRows (hs : List (List ℚ)) (nCh target : ℕ) : List (List ℚ) :=
  hs ++ List.replicate (target - hs.length) (List.replicate nCh 0)

/-- Pad and chunk an input as in LmHeadTender.forward lines 1539-1551. -/
def lmChunks (cs nCh : ℕ) (hs : List (List ℚ)) : List (List (List ℚ)) :=
  chunkRows (ceil_div hs.length cs) cs (padRows hs nCh (ceil_div hs.length cs * cs))

/-- The decomposition quantizer on one 2-D slice with on-the-fly statistics
(LmHeadTender.forward lines 1539-1586, without the final matmul): pad and
chunk the rows, run the band loop, check the band-coverage assert, and trim
the reconstruction back to the input rows. -/
def decompose (p : BandPolicy) (D cs b nCh : ℕ) (hs : List (List ℚ)) :
    Option (List (List ℚ)) :=
  if ceil_div hs.length cs = 0 then none
  else
    ((List.range D).foldl (decompStep p D b nCh (lmChunks cs nCh hs))
        (some (zerosLike (lmChunks cs nCh hs)))).bind
      (fun r =>
        if countSum p D nCh (lmChunks cs nCh hs) = nCh * ceil_div hs.length cs
        then some (r.flatten.take hs.length)
        else none)

/-- Modelled from the spec (section 8, sanity baseline), for the C5
refinement comparison: a single direct symmetric quantize-dequantize of the
whole padded tensor at the per-chunk max scale
chunk_tensor_max / (2 ** (bits - 1) - 1). -/
def directQD (cs b nCh : ℕ) (hs : List (List ℚ)) : Option (List (List ℚ)) :=
  if ceil_div hs.length cs = 0 then none
  else
    if (lmChunks cs nCh hs).any (fun ch => decide (chunkTmax ch / qMaxQ b = 0)) then none
    else some ((((lmChunks cs nCh hs).map (fun ch =>
      ch.map (fun r => r.map (fun x =>
        symQuant1 x (chunkTmax ch / qMaxQ b) b * (chunkTmax ch / qMaxQ b))))).flatten).take
      hs.length)

/-! Calibration handling of LlamaAttention_Tender_Eval.forward
(lines 679-867): each statistic is either computed on the fly (and then
stored in the corresponding separate _cal field) or read from the supplied
calibration field, sliced to the current chunk or row count. -/

/-- Signed maximum of a nonempty list (torch.max over a dimension). -/
def sMax : List ℚ → ℚ
  | [] => 0
  | x :: xs => xs.foldl max x

/-- Signed minimum of a nonempty list (torch.min over a dimension). -/
def sMin : List ℚ → ℚ
  | [] => 0
  | x :: xs => xs.foldl min x

/-- Channel j of a list of rows. -/
def colList (rows : List (List ℚ)) (j : ℕ) : List ℚ := rows.map (fun r => r.getD j 0)

/-- Per-channel bias (ch_max + ch_min) / 2 over the rows. -/
def chBias (rows : List (List ℚ)) : List ℚ :=
  (List.range (rows.headD []).length).map
    (fun j => (sMax (colList rows j) + sMin (colList rows j)) / 2)

/-- k_ch_bias: per-channel bias of each batch-by-head slice of key_states. -/
def computeKChBias (ks : List (List (List ℚ))) : List (List ℚ) := ks.map chBias

/-- Broadcast subtraction of a per-channel bias from every row. -/
def subRowBias (rows : List (List ℚ)) (bias : List ℚ) : List (List ℚ) :=
  rows.map (fun r => List.zipWith (fun a c => a - c) r bias)

/-- k_scale: per-row max(|K|) / q_max. -/
def computeRowScale (t : List (List (List ℚ))) (b : ℕ) : List (List ℚ) :=
  t.map (fun slice => slice.map (fun r => rowMaxAbs r / qMaxQ b))

/-- q_ch_bias: per-chunk per-channel bias of the chunked activations. -/
def computeChunkChBias (qc : List (List (List (List ℚ)))) : List (List (List ℚ)) :=
  qc.map (fun slice => slice.map chBias)

/-- hidden_chunks -= q_ch_bias. -/
def subChunkBias (qc : List (List (List (List ℚ)))) (bias : List (List (List ℚ))) :
    List (List (List (List ℚ))) :=
  List.zipWith (fun slice bs => List.zipWith subRowBias slice bs) qc bias

/-- q_tmax or s_tmax: per-chunk maximum absolute value. -/
def computeTmax (qc : List (List (List (List ℚ)))) : List (List ℚ) :=
  qc.map (fun slice => slice.map chunkTmax)

/-- q_cmax or s_cmax: per-chunk per-channel maximum absolute value. -/
def computeCmax (qc : List (List (List (List ℚ)))) : List (List (List ℚ)) :=
  qc.map (fun slice => slice.map (fun ch => (List.range (ch.headD []).length).map (chunkCmax ch)))

/-- v_scale: per-channel max(|V|) / q_max over the rows of each slice. -/
def computeColScale (vs : List (List (List ℚ))) (b : ℕ) : List (List ℚ) :=
  vs.map (fun slice =>
    (List.range (slice.headD []).length).map (fun j => chunkCmax slice j / qMaxQ b))

/-- The calibration fields of LlamaAttention_Tender_Eval (lines 551-587):
the supplied fields and the separate _cal output fields. -/
structure AttnCalibState where
  kChBias : Option (List (List ℚ))
  qChBias : Option (List (List (List ℚ)))
  qTmax : Option (List (List ℚ))
  sTmax : Option (List (List ℚ))
  qGroupIndex : Option (List (List (List ℕ)))
  sGroupIndex : Option (List (List (List ℕ)))
  kScale : Option (List (List ℚ))
  vScale : Option (List (List ℚ))
  kChBiasCal : Option (List (List ℚ))
  qChBiasCal : Option (List (List (List ℚ)))
  qTmaxCal : Option (List (List ℚ))
  sTmaxCal : Option (List (List ℚ))
  qCmaxCal : Option (List (List (List ℚ)))
  sCmaxCal : Option (List (List (List ℚ)))
  kScaleCal : Option (List (List ℚ))
  vScaleCal : Option (List (List ℚ))

/-- The calibration reads and writes of one forward pass through the
Q times K transposed and S times V paths (lines 679-867): every statistic is
computed when its supplied field is None (and then written to the _cal
field), else read from the supplied field, sliced to the current shape.
The second component returns the values actually used. -/
def attnCalibForward (st : AttnCalibState) (b srcLen chunks : ℕ)
    (keyStates valueStates : List (List (List ℚ)))
    (queryChunks scoreChunks : List (List (List (List ℚ)))) :
    AttnCalibState × (List (List ℚ) × List (List (List ℚ)) × List (List ℚ) × List (List ℚ) ×
      List (List ℚ) × List (List ℚ)) :=
  let kChBiasU := match st.kChBias with
    | none => computeKChBias keyStates
    | some v => v
  let K := List.zipWith subRowBias keyStates kChBiasU
  let kScaleU := match st.kScale with
    | none => computeRowScale K b
    | some v => v.map (fun rows => rows.take srcLen)
  let qChBiasU := match st.qChBias with
    | none => computeChunkChBias queryChunks
    | some v => v.map (fun sl => sl.take chunks)
  let hc1 := subChunkBias queryChunks qChBiasU
  let qTmaxU := match st.qTmax with
    | none => computeTmax hc1
    | some v => v.map (fun sl => sl.take chunks)
  let sTmaxU := match st.sTmax with
    | none => computeTmax scoreChunks
    | some v => v.map (fun sl => sl.take chunks)
  let vScaleU := match st.vScale with
    | none => computeColScale valueStates b
    | some v => v
  ({ st with
      kChBiasCal := if st.kChBias.isNone then some (computeKChBias keyStates) else st.kChBiasCal
      kScaleCal := if st.kScale.isNone then some (computeRowScale K b) else st.kScaleCal
      qChBiasCal :=
        if st.qChBias.isNone then some (computeChunkChBias queryChunks) else st.qChBiasCal
      qTmaxCal := if st.qTmax.isNone then some (computeTmax hc1) else st.qTmaxCal
      qCmaxCal := if st.qGroupIndex.isNone then some (computeCmax hc1) else st.qCmaxCal
      sTmaxCal := if st.sTmax.isNone then some (computeTmax scoreChunks) else st.sTmaxCal
      sCmaxCal := if st.sGroupIndex.isNone then some (computeCmax scoreChunks) else st.sCmaxCal
      vScaleCal := if st.vScale.isNone then some (computeColScale valueStates b) else st.vScaleCal },
   (kChBiasU, qChBiasU, qTmaxU, sTmaxU, kScaleU, vScaleU))

/-! Basic lemmas about the primitive. -/

lemma roundEven_intCast (z : ℤ) : roundEven (z : ℚ) = z := by
  simp only [roundEven, Int.floor_intCast, sub_self]
  norm_num

lemma clampQ_le (x lo hi : ℚ) : clampQ x lo hi ≤ hi := min_le_right _ _

lemma le_clampQ (x lo hi : ℚ) (h : lo ≤ hi) : lo ≤ clampQ x lo hi :=
  le_min (le_max_right _ _) h

lemma clampQ_of_le (x lo hi : ℚ) (h1 : lo ≤ x) (h2 : x ≤ hi) : clampQ x lo hi = x := by
  unfold clampQ
  rw [max_eq_left h1, min_eq_left h2]

lemma qMaxQ_nonneg (b : ℕ) : 0 ≤ qMaxQ b := by
  unfold qMaxQ
  have h : (1 : ℕ) ≤ 2 ^ (b - 1) := Nat.one_le_two_pow
  have h2 : ((1 : ℕ) : ℚ) ≤ ((2 ^ (b - 1) : ℕ) : ℚ) := by exact_mod_cast h
  push_cast at h2
  linarith

lemma neg_le_qMaxQ (b : ℕ) : -(qMaxQ b + 1) ≤ qMaxQ b := by
  have := qMaxQ_nonneg b
  linarith

/-- sym_quant produces integer values: the elementwise result is the cast of
an integer clamp. -/
lemma symQuant1_eq_int (x s : ℚ) (b : ℕ) :
    symQuant1 x s b =
      ((clampZ (roundEven (x / max |s| eps)) (-(2 ^ (b - 1))) (2 ^ (b - 1) - 1) : ℤ) : ℚ) := by
  unfold symQuant1 clampZ clampQ qMaxQ
  push_cast
  ring_nf

lemma symQuant1_le (x s : ℚ) (b : ℕ) : symQuant1 x s b ≤ qMaxQ b := clampQ_le _ _ _

lemma neg_le_symQuant1 (x s : ℚ) (b : ℕ) : -(qMaxQ b + 1) ≤ symQuant1 x s b :=
  le_clampQ _ _ _ (neg_le_qMaxQ b)

lemma eps_pos : (0 : ℚ) < eps := by norm_num [eps]

/-- Quantize-dequantize is elementwise idempotent when the scale is at least
the clamp epsilon. -/
lemma symQuant1_dequant_idem (x s : ℚ) (b : ℕ) (hs : eps ≤ s) :
    symQuant1 (symQuant1 x s b * s) s b = symQuant1 x s b := by
  have hspos : 0 < s := lt_of_lt_of_le eps_pos hs
  have habs : max |s| eps = s := by
    rw [abs_of_pos hspos]
    exact max_eq_left hs
  have hdiv : symQuant1 x s b * s / s = symQuant1 x s b :=
    mul_div_cancel_right₀ _ (ne_of_gt hspos)
  obtain ⟨z, hz⟩ : ∃ z : ℤ, symQuant1 x s b = (z : ℚ) := ⟨_, symQuant1_eq_int x s b⟩
  conv_lhs => rw [symQuant1]
  rw [habs, hdiv, hz, roundEven_intCast, ← hz]
  exact clampQ_of_le _ _ _ (neg_le_symQuant1 x s b) (symQuant1_le x s b)

lemma zipWith_comp_same (f g : ℚ → ℚ → ℚ) :
    ∀ (x s : List ℚ),
      List.zipWith g (List.zipWith f x s) s = List.zipWith (fun a c => g (f a c) c) x s := by
  intro x
  induction x with
  | nil => intro s; simp
  | cons a x ih =>
    intro s
    cases s with
    | nil => simp
    | cons c s => simp [ih s]

lemma zipWith_congr_right_mem (F G : ℚ → ℚ → ℚ) :
    ∀ (x s : List ℚ), (∀ a c, c ∈ s → F a c = G a c) →
      List.zipWith F x s = List.zipWith G x s := by
  intro x
  induction x with
  | nil => intro s _; simp
  | cons a x ih =>
    intro s h
    cases s with
    | nil => simp
    | cons c s =>
      simp only [List.zipWith_cons_cons]
      rw [h a c (List.mem_cons_self _ _), ih s (fun a2 c2 hc => h a2 c2 (List.mem_cons_of_mem _ hc))]

lemma symQuant1_abs (a c : ℚ) (b : ℕ) : symQuant1 a |c| b = symQuant1 a c b := by
  unfold symQuant1
  rw [abs_abs]

/-! Claim C3. -/

/-- C3 counterexample: sym_quant does not return round(x/s) clamped.  With
scale -1 the code divides by max(|-1|, 1e-9) = 1 and returns 1, while the
claimed formula gives round(1/(-1)) = -1; with scale 1e-10 the code divides
by the clamped 1e-9 and returns 1, while the claimed formula gives
clamp(round(10)) = 7. -/
theorem C3_sym_quant_cex :
    sym_quant [(1 : ℚ)] [-1] 4 = some [1]
    ∧ spec_sym_quant [(1 : ℚ)] [-1] 4 = some [-1]
    ∧ sym_quant [(1 : ℚ) / 10 ^ 9] [(1 : ℚ) / 10 ^ 10] 4 = some [1]
    ∧ spec_sym_quant [(1 : ℚ) / 10 ^ 9] [(1 : ℚ) / 10 ^ 10] 4 = some [7]
    ∧ ((1 : ℚ) ≠ -1) ∧ ((1 : ℚ) ≠ 7) := by
  refine ⟨?_, ?_, ?_, ?_, by norm_num, by norm_num⟩
  · norm_num [sym_quant, symQuant1, clampQ, qMaxQ, eps, roundEven, abs_of_pos]
  · norm_num [spec_sym_quant, clampQ, qMaxQ, roundEven]
    norm_num [Int.fract]
  · norm_num [sym_quant, symQuant1, clampQ, qMaxQ, eps, roundEven, abs_of_pos]
  · norm_num [spec_sym_quant, clampQ, qMaxQ, roundEven]

/-- C3 (amended): sym_quant fails exactly when some entry of the scale is
zero, and otherwise returns integer-valued entries equal to
round(x / max(|s|, 1e-9)) clamped elementwise to [-(2^(b-1)), 2^(b-1)-1]. -/
theorem C3_sym_quant_amended (x s : List ℚ) (b : ℕ) (hb : 1 ≤ b) :
    (sym_quant x s b = none ↔ ∃ v ∈ s, v = 0)
    ∧ ((∀ v ∈ s, v ≠ 0) →
        sym_quant x s b = some (List.zipWith
          (fun a c =>
            ((clampZ (roundEven (a / max |c| eps)) (-(2 ^ (b - 1))) (2 ^ (b - 1) - 1) : ℤ) : ℚ))
          x s)) := by
  have hany : (s.any (fun v => decide (v = 0)) = true) ↔ ∃ v ∈ s, v = 0 := by
    rw [List.any_eq_true]
    simp
  constructor
  · constructor
    · intro h
      by_cases hc : s.any (fun v => decide (v = 0)) = true
      · exact hany.mp hc
      · simp [sym_quant, hc] at h
    · intro h
      simp [sym_quant, hany.mpr h]
  · intro h
    have hc : s.any (fun v => decide (v = 0)) = false := by
      rw [List.any_eq_false]
      intro v hv
      simpa using h v hv
    simp only [sym_quant, hc, Bool.false_eq_true, if_false]
    simp only [symQuant1_eq_int]

/-- C3 witness: the amended theorem applied to x = [3/2], s = [2], b = 4. -/
theorem C3_sym_quant_witness :
    (1 ≤ 4)
    ∧ ((sym_quant [(3 : ℚ) / 2] [2] 4 = none ↔ ∃ v ∈ [(2 : ℚ)], v = 0)
      ∧ ((∀ v ∈ [(2 : ℚ)], v ≠ 0) →
          sym_quant [(3 : ℚ) / 2] [2] 4 = some (List.zipWith
            (fun a c =>
              ((clampZ (roundEven (a / max |c| eps)) (-(2 ^ (4 - 1))) (2 ^ (4 - 1) - 1) : ℤ) : ℚ))
            [(3 : ℚ) / 2] [2]))) :=
  ⟨by norm_num, C3_sym_quant_amended [(3 : ℚ) / 2] [2] 4 (by norm_num)⟩

/-! Claim C6. -/

set_option maxHeartbeats 1600000 in
/-- C6 counterexample: dequantize-quantize composition is not idempotent for
every scale.  With scale -1 one pass maps 1 to -1 and a second pass maps -1
back to 1; with the sub-epsilon scale 1e-10 one pass gives 7e-10 and a second
pass gives 1e-10. -/
theorem C6_idempotent_cex :
    ((quantDequant [(1 : ℚ)] [-1] 4).bind (fun y => quantDequant y [-1] 4) = some [1]
      ∧ quantDequant [(1 : ℚ)] [-1] 4 = some [-1] ∧ ((1 : ℚ) ≠ -1))
    ∧ ((quantDequant [(1 : ℚ)] [(1 : ℚ) / 10 ^ 10] 4).bind
          (fun y => quantDequant y [(1 : ℚ) / 10 ^ 10] 4) = some [(1 : ℚ) / 10 ^ 10]
      ∧ quantDequant [(1 : ℚ)] [(1 : ℚ) / 10 ^ 10] 4 = some [(7 : ℚ) / 10 ^ 10]
      ∧ ((1 : ℚ) / 10 ^ 10 ≠ 7 / 10 ^ 10)) := by
  have e1 : sym_quant [(1 : ℚ)] [-1] 4 = some [1] := by
    norm_num [sym_quant, symQuant1, clampQ, qMaxQ, eps, roundEven, abs_of_pos]
  have e2 : sym_quant [(-1 : ℚ)] [-1] 4 = some [-1] := by
    norm_num [sym_quant, symQuant1, clampQ, qMaxQ, eps, roundEven, abs_of_pos]
    norm_num [Int.fract]
  have e3 : sym_quant [(1 : ℚ)] [(1 : ℚ) / 10 ^ 10] 4 = some [7] := by
    norm_num [sym_quant, symQuant1, clampQ, qMaxQ, eps, roundEven, abs_of_pos]
  have e4 : sym_quant [(7 : ℚ) / 10 ^ 10] [(1 : ℚ) / 10 ^ 10] 4 = some [1] := by
    norm_num [sym_quant, symQuant1, clampQ, qMaxQ, eps, roundEven, abs_of_pos]
    norm_num [Int.fract]
  have q1 : quantDequant [(1 : ℚ)] [-1] 4 = some [-1] := by
    rw [quantDequant, e1]
    norm_num [sym_dequant]
  have q2 : quantDequant [(-1 : ℚ)] [-1] 4 = some [1] := by
    rw [quantDequant, e2]
    norm_num [sym_dequant]
  have q3 : quantDequant [(1 : ℚ)] [(1 : ℚ) / 10 ^ 10] 4 = some [(7 : ℚ) / 10 ^ 10] := by
    rw [quantDequant, e3]
    norm_num [sym_dequant]
  have q4 : quantDequant [(7 : ℚ) / 10 ^ 10] [(1 : ℚ) / 10 ^ 10] 4 = some [(1 : ℚ) / 10 ^ 10] := by
    rw [quantDequant, e4]
    norm_num [sym_dequant]
  refine ⟨⟨?_, q1, by norm_num⟩, ⟨?_, q3, by norm_num⟩⟩
  · rw [q1, Option.some_bind, q2]
  · rw [q3, Option.some_bind, q4]

/-- C6 (amended): the composition dequantize(quantize(x, s, b), s) is
idempotent when every scale entry is at least the clamp epsilon 1e-9. -/
theorem C6_idempotent_amended (x s : List ℚ) (b : ℕ) (hs : ∀ v ∈ s, eps ≤ v) :
    (quantDequant x s b).bind (fun y => quantDequant y s b) = quantDequant x s b := by
  have hnz : s.any (fun v => decide (v = 0)) = false := by
    rw [List.any_eq_false]
    intro v hv
    have h1 := hs v hv
    have h2 := eps_pos
    simp only [decide_eq_true_eq]
    intro h0
    rw [h0] at h1
    linarith
  have h1 : quantDequant x s b = some (List.zipWith (fun a c => symQuant1 a c b * c) x s) := by
    simp only [quantDequant, sym_quant, hnz, Bool.false_eq_true, if_false, Option.map_some',
      sym_dequant]
    rw [zipWith_comp_same]
  have h2 : quantDequant (List.zipWith (fun a c => symQuant1 a c b * c) x s) s b
      = some (List.zipWith (fun a c => symQuant1 (symQuant1 a c b * c) c b * c) x s) := by
    simp only [quantDequant, sym_quant, hnz, Bool.false_eq_true, if_false, Option.map_some',
      sym_dequant]
    rw [zipWith_comp_same, zipWith_comp_same]
  rw [h1, Option.some_bind, h2]
  congr 1
  apply zipWith_congr_right_mem
  intro a c hc
  rw [symQuant1_dequant_idem a c b (hs c hc)]

/-- C6 witness: the amended theorem applied to x = [5/2], s = [1], b = 4. -/
theorem C6_idempotent_witness :
    (∀ v ∈ [(1 : ℚ)], eps ≤ v)
    ∧ (quantDequant [(5 : ℚ) / 2] [1] 4).bind (fun y => quantDequant y [1] 4)
        = quantDequant [(5 : ℚ) / 2] [1] 4 := by
  have h : ∀ v ∈ [(1 : ℚ)], eps ≤ v := by
    intro v hv
    simp only [List.mem_singleton] at hv
    rw [hv]
    norm_num [eps]
  exact ⟨h, C6_idempotent_amended [(5 : ℚ) / 2] [1] 4 h⟩

/-! Claim C10. -/

/-- C10: sym_quant divides by the elementwise absolute value of the scale
clamped below by 1e-9, so it is invariant under replacing the scale by its
absolute value; its result has dtype float32 regardless of the input dtypes;
sym_dequant multiplies by the original signed scale and casts to the target
dtype. -/
theorem C10_sym_quant_abs_scale (x s q : QTensor) (b : ℕ) (dt : DType)
    (h : ∀ v ∈ s.data, v ≠ 0) :
    sym_quant_t x s b = sym_quant_t x ⟨s.data.map (fun v => |v|), s.dtype⟩ b
    ∧ (∃ r, sym_quant_t x s b = some r ∧ r.dtype = DType.float32
        ∧ r.data = List.zipWith (fun a c => symQuant1 a c b) x.data s.data)
    ∧ sym_dequant_t q s dt = ⟨List.zipWith (fun a c => a * c) q.data s.data, dt⟩ := by
  have hnz : s.data.any (fun v => decide (v = 0)) = false := by
    rw [List.any_eq_false]
    intro v hv
    simpa using h v hv
  have hnz2 : (s.data.map (fun v => |v|)).any (fun v => decide (v = 0)) = false := by
    rw [List.any_eq_false]
    intro v hv
    obtain ⟨w, hw, rfl⟩ := List.mem_map.mp hv
    simpa [abs_eq_zero] using h w hw
  have hq : sym_quant_t x s b
      = some ⟨List.zipWith (fun a c => symQuant1 a c b) x.data s.data, DType.float32⟩ := by
    simp [sym_quant_t, hnz]
  have hdata : List.zipWith (fun a c => symQuant1 a c b) x.data (s.data.map (fun v => |v|))
      = List.zipWith (fun a c => symQuant1 a c b) x.data s.data := by
    rw [List.zipWith_map_right]
    exact zipWith_congr_right_mem _ _ x.data s.data (fun a c _ => symQuant1_abs a c b)
  have hq2 : sym_quant_t x ⟨s.data.map (fun v => |v|), s.dtype⟩ b
      = some ⟨List.zipWith (fun a c => symQuant1 a c b) x.data s.data, DType.float32⟩ := by
    simp only [sym_quant_t, hnz2, Bool.false_eq_true, if_false]
    rw [hdata]
  refine ⟨?_, ⟨_, hq, rfl, rfl⟩, rfl⟩
  rw [hq, hq2]

/-- C10 witness: the theorem applied at concrete tensors with a negative
scale entry and non-float32 dtypes. -/
theorem C10_sym_quant_abs_scale_witness :
    (∀ v ∈ (⟨[-2], DType.bfloat16⟩ : QTensor).data, v ≠ 0)
    ∧ (sym_quant_t ⟨[1], DType.float16⟩ ⟨[-2], DType.bfloat16⟩ 4
        = sym_quant_t ⟨[1], DType.float16⟩
            ⟨(⟨[-2], DType.bfloat16⟩ : QTensor).data.map (fun v => |v|),
              (⟨[-2], DType.bfloat16⟩ : QTensor).dtype⟩ 4
      ∧ (∃ r, sym_quant_t ⟨[1], DType.float16⟩ ⟨[-2], DType.bfloat16⟩ 4 = some r
          ∧ r.dtype = DType.float32
          ∧ r.data = List.zipWith (fun a c => symQuant1 a c 4)
              (⟨[1], DType.float16⟩ : QTensor).data (⟨[-2], DType.bfloat16⟩ : QTensor).data)
      ∧ sym_dequant_t ⟨[3], DType.float64⟩ ⟨[-2], DType.bfloat16⟩ DType.float16
          = ⟨List.zipWith (fun a c => a * c)
              (⟨[3], DType.float64⟩ : QTensor).data (⟨[-2], DType.bfloat16⟩ : QTensor).data,
            DType.float16⟩) := by
  have h : ∀ v ∈ (⟨[-2], DType.bfloat16⟩ : QTensor).data, v ≠ 0 := by
    intro v hv
    simp only [List.mem_singleton] at hv
    rw [hv]
    norm_num
  exact ⟨h, C10_sym_quant_abs_scale ⟨[1], DType.float16⟩ ⟨[-2], DType.bfloat16⟩
    ⟨[3], DType.float64⟩ 4 DType.float16 h⟩

/-! Lemmas about chunk statistics, thresholds and band masks. -/

lemma threshold_last (tm : ℚ) (D : ℕ) : threshold tm D (D - 1) = tm := by
  unfold threshold
  rw [Nat.sub_self]
  norm_num

lemma threshold_mono (tm : ℚ) (htm : 0 ≤ tm) (D : ℕ) {i k : ℕ} (h : i ≤ k) :
    threshold tm D i ≤ threshold tm D k := by
  unfold threshold
  exact div_le_div_of_nonneg_left htm (pow_pos (by norm_num) _)
    (pow_le_pow_right₀ (by norm_num) (Nat.sub_le_sub_left h (D - 1)))

lemma rowMaxAbs_nonneg (r : List ℚ) : 0 ≤ rowMaxAbs r := by
  induction r with
  | nil => simp [rowMaxAbs]
  | cons x xs ih => exact le_trans ih (le_max_right _ _)

lemma chunkCmax_nonneg (ch : List (List ℚ)) (j : ℕ) : 0 ≤ chunkCmax ch j := by
  induction ch with
  | nil => simp [chunkCmax]
  | cons r t ih => exact le_trans ih (le_max_right _ _)

lemma getD_abs_le_rowMaxAbs (r : List ℚ) (j : ℕ) : |r.getD j 0| ≤ rowMaxAbs r := by
  induction r generalizing j with
  | nil => simp [rowMaxAbs]
  | cons x xs ih =>
    cases j with
    | zero => exact le_max_left _ _
    | succ j => exact le_trans (ih j) (le_max_right _ _)

lemma chunkCmax_le_tmax (ch : List (List ℚ)) (j : ℕ) : chunkCmax ch j ≤ chunkTmax ch := by
  induction ch with
  | nil => simp [chunkCmax, chunkTmax]
  | cons r t ih => exact max_le_max (getD_abs_le_rowMaxAbs r j) ih

lemma bandMask_noElse_iff (D i : ℕ) (tm m : ℚ) :
    bandMask BandPolicy.noElse D i tm m = true ↔
      (i = 0 ∧ m ≤ threshold tm D 0)
      ∨ (i ≠ 0 ∧ threshold tm D (i - 1) < m ∧ m ≤ threshold tm D i) := by
  by_cases h0 : i = 0 <;> simp [bandMask, h0]

lemma bandMask_closedTop_iff (D i : ℕ) (tm m : ℚ) :
    bandMask BandPolicy.closedTop D i tm m = true ↔
      (i = 0 ∧ m ≤ threshold tm D 0)
      ∨ (i ≠ 0 ∧ i = D - 1 ∧ threshold tm D (i - 1) < m)
      ∨ (i ≠ 0 ∧ i ≠ D - 1 ∧ threshold tm D (i - 1) < m ∧ m ≤ threshold tm D i) := by
  by_cases h0 : i = 0
  · simp [bandMask, h0]
  · by_cases h1 : i = D - 1
    · have h0b : ¬ D - 1 = 0 := h1 ▸ h0
      simp [bandMask, h0, h1, h0b]
    · simp [bandMask, h0, h1]

/-- Every channel magnitude below the chunk maximum lies in exactly one
band, under both boundary policies. -/
lemma bandMask_existsUnique (p : BandPolicy) (D : ℕ) (tm m : ℚ) (hD : 1 ≤ D)
    (hm0 : 0 ≤ m) (hmt : m ≤ tm) :
    ∃! i, i < D ∧ bandMask p D i tm m = true := by
  classical
  have htm : 0 ≤ tm := le_trans hm0 hmt
  have hPex : ∃ i, m ≤ threshold tm D i := ⟨D - 1, by rw [threshold_last]; exact hmt⟩
  have hPj : m ≤ threshold tm D (Nat.find hPex) := Nat.find_spec hPex
  set j := Nat.find hPex with hjdef
  have hjle : j ≤ D - 1 := Nat.find_min' hPex (by rw [threshold_last]; exact hmt)
  have hD0 : 0 < D := hD
  have hjD : j < D := lt_of_le_of_lt hjle (Nat.sub_lt hD0 one_pos)
  have hmask : bandMask p D j tm m = true := by
    by_cases hj0 : j = 0
    · cases p <;> simp [bandMask, hj0, hj0 ▸ hPj]
    · have hjpos : 0 < j := Nat.pos_of_ne_zero hj0
      have hnot : ¬ m ≤ threshold tm D (j - 1) :=
        Nat.find_min hPex (Nat.sub_lt hjpos one_pos)
      have hlt : threshold tm D (j - 1) < m := not_le.mp hnot
      cases p with
      | noElse => simp [bandMask, hj0, hlt, hPj]
      | closedTop =>
        by_cases hjl : j = D - 1
        · have hj0b : ¬ D - 1 = 0 := hjl ▸ hj0
          have hltb : threshold tm D (D - 1 - 1) < m := hjl ▸ hlt
          simp [bandMask, hj0, hjl, hj0b, hltb]
        · simp [bandMask, hj0, hjl, hlt, hPj]
  refine ⟨j, ⟨hjD, hmask⟩, ?_⟩
  rintro i ⟨hiD, him⟩
  rcases lt_trichotomy i j with hlt | heq | hgt
  · exfalso
    have hnotPi : ¬ m ≤ threshold tm D i := Nat.find_min hPex hlt
    cases p with
    | noElse =>
      rcases (bandMask_noElse_iff D i tm m).mp him with ⟨h0, hle⟩ | ⟨_, _, hle⟩
      · exact hnotPi (h0 ▸ hle)
      · exact hnotPi hle
    | closedTop =>
      rcases (bandMask_closedTop_iff D i tm m).mp him with ⟨h0, hle⟩ | ⟨_, hD1, _⟩ | ⟨_, _, _, hle⟩
      · exact hnotPi (h0 ▸ hle)
      · exact absurd hlt (not_lt.mpr (hD1 ▸ hjle))
      · exact hnotPi hle
  · exact heq
  · exfalso
    have hine : i ≠ 0 := (lt_of_le_of_lt (Nat.zero_le j) hgt).ne'
    have hji : j ≤ i - 1 := Nat.le_sub_one_of_lt hgt
    have hmle : m ≤ threshold tm D (i - 1) := le_trans hPj (threshold_mono tm htm D hji)
    cases p with
    | noElse =>
      rcases (bandMask_noElse_iff D i tm m).mp him with ⟨h0, _⟩ | ⟨_, hl, _⟩
      · exact hine h0
      · linarith
    | closedTop =>
      rcases (bandMask_closedTop_iff D i tm m).mp him with ⟨h0, _⟩ | ⟨_, _, hl⟩ | ⟨_, _, hl, _⟩
      · exact hine h0
      · linarith
      · linarith

lemma length_filter_range (f : ℕ → Bool) (n : ℕ) :
    ((List.range n).filter f).length = ∑ j in Finset.range n, (if f j then 1 else 0) := by
  induction n with
  | zero => simp
  | succ n ih =>
    rw [List.range_succ, List.filter_append, List.length_append, ih, Finset.sum_range_succ]
    cases hf : f n <;> simp [hf, List.filter]

lemma chunkBandCount_sum (p : BandPolicy) (D nCh : ℕ) (ch : List (List ℚ)) (hD : 1 ≤ D) :
    ∑ i in Finset.range D, chunkBandCount p D i nCh ch = nCh := by
  unfold chunkBandCount
  simp only [length_filter_range]
  rw [Finset.sum_comm]
  have hone : ∀ j ∈ Finset.range nCh,
      (∑ i in Finset.range D,
        if bandMask p D i (chunkTmax ch) (chunkCmax ch j) then 1 else 0) = 1 := by
    intro j _
    obtain ⟨i0, ⟨hi0D, hi0m⟩, huniq⟩ := bandMask_existsUnique p D (chunkTmax ch)
      (chunkCmax ch j) hD (chunkCmax_nonneg ch j) (chunkCmax_le_tmax ch j)
    rw [Finset.sum_eq_single i0]
    · simp [hi0m]
    · intro i hi hne
      by_cases hm : bandMask p D i (chunkTmax ch) (chunkCmax ch j) = true
      · exact absurd (huniq i ⟨Finset.mem_range.mp hi, hm⟩) hne
      · simp [hm]
    · intro habs
      exact absurd (Finset.mem_range.mpr hi0D) habs
  rw [Finset.sum_congr rfl hone]
  simp

lemma countSum_eq (p : BandPolicy) (D nCh : ℕ) (cd : List (List (List ℚ))) (hD : 1 ≤ D) :
    countSum p D nCh cd = cd.length * nCh := by
  unfold countSum bandCount
  induction cd with
  | nil => simp
  | cons ch t ih =>
    simp only [List.map_cons, List.sum_cons]
    rw [Finset.sum_add_distrib, ih, chunkBandCount_sum p D nCh ch hD, List.length_cons]
    ring

lemma sum_map_const {α : Type} (l : List α) (c : ℕ) : (l.map (fun _ => c)).sum = l.length * c := by
  induction l with
  | nil => simp
  | cons x t ih =>
    simp [ih, List.length_cons]
    ring

lemma pathCountSum_eq (p : BandPolicy) (D nCh : ℕ) (slices : List (List (List (List ℚ))))
    (hD : 1 ≤ D) :
    pathCountSum p D nCh slices = (slices.map (fun cd => cd.length * nCh)).sum := by
  unfold pathCountSum pathBandCount
  induction slices with
  | nil => simp
  | cons cd t ih =>
    simp only [List.map_cons, List.sum_cons]
    rw [Finset.sum_add_distrib, ih]
    congr 1
    exact countSum_eq p D nCh cd hD

lemma chunkRows_length (n cs : ℕ) (l : List (List ℚ)) : (chunkRows n cs l).length = n := by
  induction n generalizing l with
  | zero => simp [chunkRows]
  | succ n ih => simp [chunkRows, ih]

lemma lmChunks_length (cs nCh : ℕ) (hs : List (List ℚ)) :
    (lmChunks cs nCh hs).length = ceil_div hs.length cs := by
  unfold lmChunks
  exact chunkRows_length _ _ _

/-! Claim C1. -/

/-- C1: with on-the-fly statistics, the per-band mask counts summed over all
bands cover every channel of every chunk exactly once: the query path
(noElse policy), the attention-score path (closedTop policy) and the LM head
(closedTop, single slice) all sum to slices times chunks times channels, and
the LM-head band-coverage assert returns an error whenever the sum deviates
from channels times chunks. -/
theorem C1_band_coverage (D nChQ nChS nChL chunksQ chunksS : ℕ)
    (qSlices sSlices : List (List (List (List ℚ)))) (cdL : List (List (List ℚ)))
    (hD : 1 ≤ D)
    (hq : ∀ cd ∈ qSlices, cd.length = chunksQ)
    (hsl : ∀ cd ∈ sSlices, cd.length = chunksS) :
    pathCountSum BandPolicy.noElse D nChQ qSlices = qSlices.length * (chunksQ * nChQ)
    ∧ pathCountSum BandPolicy.closedTop D nChS sSlices = sSlices.length * (chunksS * nChS)
    ∧ countSum BandPolicy.closedTop D nChL cdL = cdL.length * nChL
    ∧ (∀ (p : BandPolicy) (cs bq : ℕ) (inp : List (List ℚ)),
        countSum p D nChL (lmChunks cs nChL inp) ≠ nChL * ceil_div inp.length cs →
        decompose p D cs bq nChL inp = none) := by
  refine ⟨?_, ?_, countSum_eq _ _ _ _ hD, ?_⟩
  · rw [pathCountSum_eq _ _ _ _ hD,
      List.map_congr_left (fun cd hcd => by rw [hq cd hcd]), sum_map_const]
  · rw [pathCountSum_eq _ _ _ _ hD,
      List.map_congr_left (fun cd hcd => by rw [hsl cd hcd]), sum_map_const]
  · intro p cs bq inp hne
    unfold decompose
    by_cases hch : ceil_div inp.length cs = 0
    · simp [hch]
    · cases hred : (List.range D).foldl (decompStep p D bq nChL (lmChunks cs nChL inp))
          (some (zerosLike (lmChunks cs nChL inp))) with
      | none => simp [hch, hred]
      | some r => simp [hch, hred, hne]

/-- C1 witness: one query slice, one score slice and an LM-head slice, each
one chunk of one row and one channel, with two bands. -/
theorem C1_band_coverage_witness :
    (1 ≤ 2)
    ∧ (∀ cd ∈ [[[[(1 : ℚ)]]]], cd.length = 1)
    ∧ (∀ cd ∈ [[[[(1 : ℚ)]]]], cd.length = 1)
    ∧ (pathCountSum BandPolicy.noElse 2 1 [[[[(1 : ℚ)]]]] = 1 * (1 * 1)
      ∧ pathCountSum BandPolicy.closedTop 2 1 [[[[(1 : ℚ)]]]] = 1 * (1 * 1)
      ∧ countSum BandPolicy.closedTop 2 1 [[[(1 : ℚ)]]] = 1 * 1
      ∧ (∀ (p : BandPolicy) (cs bq : ℕ) (inp : List (List ℚ)),
          countSum p 2 1 (lmChunks cs 1 inp) ≠ 1 * ceil_div inp.length cs →
          decompose p 2 cs bq 1 inp = none)) := by
  have h1 : (1 : ℕ) ≤ 2 := by norm_num
  have h2 : ∀ cd ∈ [[[[(1 : ℚ)]]]], cd.length = 1 := by
    intro cd hcd
    simp only [List.mem_singleton] at hcd
    simp [hcd]
  exact ⟨h1, h2, h2, C1_band_coverage 2 1 1 1 1 1 [[[[(1 : ℚ)]]]] [[[[(1 : ℚ)]]]]
    [[[(1 : ℚ)]]] h1 h2 h2⟩

/-! Claim C7. -/

/-- C7 counterexample: for a one-row one-channel input with chunk size 2 the
per-band counts sum to chunks times channels = 1, not
rows_padded times channels = 2. -/
theorem C7_count_sum_cex :
    countSum BandPolicy.closedTop 1 1 (lmChunks 2 1 [[(1 : ℚ)]]) = 1
    ∧ ceil_div 1 2 * 2 * 1 = 2
    ∧ (1 : ℕ) ≠ 2 := by
  refine ⟨?_, by norm_num [ceil_div], by norm_num⟩
  norm_num [countSum, bandCount, chunkBandCount, bandMask, threshold, chunkTmax, chunkCmax,
    rowMaxAbs, lmChunks, chunkRows, padRows, ceil_div, List.range_succ, List.filter]

/-- C7 (amended): for any input, the per-band entry counts sum to
chunks times channels exactly, where chunks = ceil(rows / chunk_size); the
count is over channel-chunk entries and does not scale with the padded row
count. -/
theorem C7_count_sum_amended (p : BandPolicy) (D cs nCh : ℕ) (hs : List (List ℚ))
    (hD : 1 ≤ D) :
    countSum p D nCh (lmChunks cs nCh hs) = ceil_div hs.length cs * nCh := by
  rw [countSum_eq _ _ _ _ hD, lmChunks_length]

/-- C7 witness: the amended theorem at a one-row input with chunk size 2. -/
theorem C7_count_sum_witness :
    (1 ≤ 1)
    ∧ countSum BandPolicy.closedTop 1 1 (lmChunks 2 1 [[(2 : ℚ)]])
        = ceil_div ([[(2 : ℚ)]] : List (List ℚ)).length 2 * 1 :=
  ⟨by norm_num, C7_count_sum_amended BandPolicy.closedTop 1 2 1 [[(2 : ℚ)]] (by norm_num)⟩

/-! Claim C4. -/

lemma whereRow_getD (mf : ℕ → Bool) (r : List ℚ) : ∀ (k j : ℕ),
    (whereRow mf k r).getD j 0 = if j < r.length ∧ mf (k + j) then r.getD j 0 else 0 := by
  induction r with
  | nil => intro k j; simp [whereRow]
  | cons x xs ih =>
    intro k j
    cases j with
    | zero =>
      simp only [whereRow, List.getD_cons_zero, List.length_cons, Nat.add_zero]
      by_cases hm : mf k <;> simp [hm]
    | succ j =>
      simp only [whereRow, List.getD_cons_succ, List.length_cons, ih (k + 1) j]
      have harith : k + 1 + j = k + (j + 1) := by ring
      rw [harith]
      by_cases hj : j < xs.length <;> simp [hj, Nat.succ_lt_succ_iff]

/-- C4: the query/key path assigns band 0 the channels with
chunk_channel_max below thresholds[0] and band i the half-open interval
(thresholds[i-1], thresholds[i]]; the attention-score and LM-head paths use
the closed-top variant whose last band takes everything above
thresholds[last-1]; and torch.where zeroes the masked-out entries before
quantization. -/
theorem C4_band_intervals (D i : ℕ) (tm m : ℚ) (hD : 1 ≤ D) (hiD : i < D) :
    (bandMask BandPolicy.noElse D i tm m = true ↔
      (if i = 0 then m ≤ threshold tm D 0
        else m ∈ Set.Ioc (threshold tm D (i - 1)) (threshold tm D i)))
    ∧ (bandMask BandPolicy.closedTop D i tm m = true ↔
      (if i = 0 then m ≤ threshold tm D 0
        else if i = D - 1 then threshold tm D (i - 1) < m
        else m ∈ Set.Ioc (threshold tm D (i - 1)) (threshold tm D i)))
    ∧ (∀ (mf : ℕ → Bool) (r : List ℚ) (j : ℕ),
        (whereRow mf 0 r).getD j 0 = if j < r.length ∧ mf j then r.getD j 0 else 0) := by
  refine ⟨?_, ?_, ?_⟩
  · by_cases h0 : i = 0 <;> simp [bandMask, h0, Set.mem_Ioc]
  · by_cases h0 : i = 0 <;> by_cases h1 : i = D - 1 <;> simp [bandMask, h0, h1, Set.mem_Ioc]
  · intro mf r j
    have h := whereRow_getD mf r 0 j
    simpa using h

/-! Lemmas about padding, chunking and the band loop. -/

lemma ceil_div_pos (a b : ℕ) (ha : 1 ≤ a) (hb : 1 ≤ b) : 1 ≤ ceil_div a b := by
  unfold ceil_div
  rw [Nat.one_le_div_iff hb]
  omega

lemma le_ceil_div_mul (a b : ℕ) (hb : 1 ≤ b) : a ≤ ceil_div a b * b := by
  unfold ceil_div
  have h3 := Nat.lt_div_mul_add (show 0 < b from hb) (a := a + b - 1)
  omega

lemma padRows_length (hs : List (List ℚ)) (nCh target : ℕ) (h : hs.length ≤ target) :
    (padRows hs nCh target).length = target := by
  simp [padRows]
  omega

lemma padRows_widths (hs : List (List ℚ)) (nCh target : ℕ)
    (hrect : ∀ r ∈ hs, r.length = nCh) :
    ∀ r ∈ padRows hs nCh target, r.length = nCh := by
  intro r hr
  rcases List.mem_append.mp hr with h | h
  · exact hrect r h
  · rw [List.eq_of_mem_replicate h]
    exact List.length_replicate _ _

lemma chunkRows_flatten (n cs : ℕ) (l : List (List ℚ)) :
    (chunkRows n cs l).flatten = l.take (n * cs) := by
  induction n generalizing l with
  | zero => simp [chunkRows]
  | succ n ih =>
    show (l.take cs :: chunkRows n cs (l.drop cs)).flatten = l.take ((n + 1) * cs)
    rw [List.flatten_cons, ih, show (n + 1) * cs = cs + n * cs by ring, List.take_add]

lemma whereRow_length (mf : ℕ → Bool) (r : List ℚ) : ∀ k, (whereRow mf k r).length = r.length := by
  induction r with
  | nil => intro k; rfl
  | cons x xs ih => intro k; simp [whereRow, ih]

lemma whereRow_all_true (mf : ℕ → Bool) (h : ∀ j, mf j = true) (r : List ℚ) :
    ∀ k, whereRow mf k r = r := by
  induction r with
  | nil => intro k; rfl
  | cons x xs ih => intro k; simp [whereRow, h, ih]

lemma foldl_decompStep_none (p : BandPolicy) (D b nCh : ℕ) (cd : List (List (List ℚ)))
    (l : List ℕ) : List.foldl (decompStep p D b nCh cd) none l = none := by
  induction l with
  | nil => rfl
  | cons i t ih =>
    rw [List.foldl_cons]
    exact ih

lemma zipWith_add_zero_map (r s : List ℚ) (h : s.length = r.length) :
    List.zipWith (· + ·) (r.map (fun _ => (0 : ℚ))) s = s := by
  induction r generalizing s with
  | nil =>
    cases s with
    | nil => rfl
    | cons y ys => simp at h
  | cons x xs ih =>
    cases s with
    | nil => simp at h
    | cons y ys =>
      simp only [List.map_cons, List.zipWith_cons_cons, zero_add]
      rw [ih ys (by simpa using h)]

lemma addMat_zeros (m u : List (List ℚ)) (h : u.map List.length = m.map List.length) :
    addMat (m.map (fun r => r.map (fun _ => (0 : ℚ)))) u = u := by
  unfold addMat
  induction m generalizing u with
  | nil =>
    cases u with
    | nil => rfl
    | cons s us => simp at h
  | cons r t ih =>
    cases u with
    | nil => simp at h
    | cons s us =>
      simp only [List.map_cons, List.zipWith_cons_cons]
      simp only [List.map_cons, List.cons.injEq] at h
      rw [zipWith_add_zero_map r s h.1, ih us h.2]

lemma addTen_zeros (t u : List (List (List ℚ)))
    (h : u.map (fun ch => ch.map List.length) = t.map (fun ch => ch.map List.length)) :
    addTen (zerosLike t) u = u := by
  unfold addTen zerosLike
  induction t generalizing u with
  | nil =>
    cases u with
    | nil => rfl
    | cons cu uu => simp at h
  | cons ch tt ih =>
    cases u with
    | nil => simp at h
    | cons cu uu =>
      simp only [List.map_cons, List.zipWith_cons_cons]
      simp only [List.map_cons, List.cons.injEq] at h
      rw [addMat_zeros ch cu h.1, ih uu h.2]

lemma bandChunk_widths (p : BandPolicy) (D i b : ℕ) (ch : List (List ℚ)) :
    (bandChunk p D i b ch).map List.length = ch.map List.length := by
  unfold bandChunk
  rw [List.map_map]
  apply List.map_congr_left
  intro r _
  simp [whereRow_length]

lemma bandChunks_sha (p : BandPolicy) (D i b : ℕ) (cd : List (List (List ℚ))) :
    (cd.map (bandChunk p D i b)).map (fun ch => ch.map List.length)
      = cd.map (fun ch => ch.map List.length) := by
  rw [List.map_map]
  apply List.map_congr_left
  intro ch _
  exact bandChunk_widths p D i b ch

lemma zerosLike_sha (t : List (List (List ℚ))) :
    (zerosLike t).map (fun ch => ch.map List.length) = t.map (fun ch => ch.map List.length) := by
  unfold zerosLike
  rw [List.map_map]
  apply List.map_congr_left
  intro ch _
  simp [List.map_map, Function.comp]

lemma addMat_widths (a c : List (List ℚ)) (h : a.map List.length = c.map List.length) :
    (addMat a c).map List.length = a.map List.length := by
  unfold addMat
  induction a generalizing c with
  | nil => simp
  | cons r t ih =>
    cases c with
    | nil => simp at h
    | cons s us =>
      simp only [List.map_cons, List.cons.injEq] at h
      simp only [List.map_cons, List.zipWith_cons_cons, List.cons.injEq]
      constructor
      · rw [List.length_zipWith, ← h.1, min_self]
      · exact ih us h.2

lemma addTen_sha (a c : List (List (List ℚ)))
    (h : a.map (fun ch => ch.map List.length) = c.map (fun ch => ch.map List.length)) :
    (addTen a c).map (fun ch => ch.map List.length)
      = a.map (fun ch => ch.map List.length) := by
  unfold addTen
  induction a generalizing c with
  | nil => simp
  | cons ch t ih =>
    cases c with
    | nil => simp at h
    | cons cu us =>
      simp only [List.map_cons, List.cons.injEq] at h
      simp only [List.map_cons, List.zipWith_cons_cons, List.cons.injEq]
      exact ⟨addMat_widths ch cu h.1, ih us h.2⟩

lemma foldl_decompStep_sha (p : BandPolicy) (D b nCh : ℕ) (cd : List (List (List ℚ))) :
    ∀ (l : List ℕ) (r r2 : List (List (List ℚ))),
      r.map (fun ch => ch.map List.length) = cd.map (fun ch => ch.map List.length) →
      List.foldl (decompStep p D b nCh cd) (some r) l = some r2 →
      r2.map (fun ch => ch.map List.length) = cd.map (fun ch => ch.map List.length) := by
  intro l
  induction l with
  | nil =>
    intro r r2 hr h
    rw [List.foldl_nil] at h
    rw [← Option.some.inj h]
    exact hr
  | cons i t ih =>
    intro r r2 hr h
    rw [List.foldl_cons] at h
    by_cases hc : bandCount p D i nCh cd = 0
    · have hstep : decompStep p D b nCh cd (some r) i = some r := by simp [decompStep, hc]
      rw [hstep] at h
      exact ih r r2 hr h
    · by_cases hz : cd.any (fun ch => decide (bandScale D i b ch = 0)) = true
      · have hstep : decompStep p D b nCh cd (some r) i = none := by simp [decompStep, hc, hz]
        rw [hstep, foldl_decompStep_none] at h
        simp at h
      · have hstep : decompStep p D b nCh cd (some r) i
            = some (addTen r (cd.map (bandChunk p D i b))) := by simp [decompStep, hc, hz]
        rw [hstep] at h
        refine ih _ r2 ?_ h
        rw [addTen_sha _ _ (hr.trans (bandChunks_sha p D i b cd).symm)]
        exact hr

/-! Lemmas about all-zero chunks, for claim C2. -/

lemma rowMaxAbs_zero (r : List ℚ) (h : ∀ x ∈ r, x = 0) : rowMaxAbs r = 0 := by
  induction r with
  | nil => rfl
  | cons x xs ih =>
    show max |x| (rowMaxAbs xs) = 0
    rw [h x (List.mem_cons_self _ _), ih (fun y hy => h y (List.mem_cons_of_mem _ hy))]
    simp

lemma chunkTmax_zero (ch : List (List ℚ)) (h : ∀ r ∈ ch, ∀ x ∈ r, x = 0) :
    chunkTmax ch = 0 := by
  induction ch with
  | nil => rfl
  | cons r t ih =>
    show max (rowMaxAbs r) (chunkTmax t) = 0
    rw [rowMaxAbs_zero r (h r (List.mem_cons_self _ _)),
      ih (fun r2 h2 => h r2 (List.mem_cons_of_mem _ h2))]
    simp

lemma zero_chunk_mask0 (p : BandPolicy) (D : ℕ) (ch : List (List ℚ))
    (hz : chunkTmax ch = 0) (j : ℕ) :
    bandMask p D 0 (chunkTmax ch) (chunkCmax ch j) = true := by
  have hc0 : chunkCmax ch j = 0 :=
    le_antisymm (hz ▸ chunkCmax_le_tmax ch j) (chunkCmax_nonneg ch j)
  cases p <;> simp [bandMask, threshold, hz, hc0, zero_div]

/-! Claim C2. -/

/-- C2 counterexample: the one-row all-zero input produces a zero threshold,
hence a zero scale, and the forward pass fails on the sym_quant zero-scale
assert instead of completing with an all-zero output. -/
theorem C2_zero_chunk_cex :
    decompose BandPolicy.closedTop 2 1 4 1 [[(0 : ℚ)]] = none := by
  have hcd : lmChunks 1 1 [[(0 : ℚ)]] = [[[0]]] := by
    norm_num [lmChunks, ceil_div, padRows, chunkRows]
  have hstep0 : decompStep BandPolicy.closedTop 2 4 1 [[[(0 : ℚ)]]]
      (some (zerosLike [[[(0 : ℚ)]]])) 0 = none := by
    norm_num [decompStep, bandCount, chunkBandCount, bandMask, threshold, chunkTmax,
      chunkCmax, rowMaxAbs, bandScale, qMaxQ, List.filter, List.range_succ]
  have hl : ([[(0 : ℚ)]] : List (List ℚ)).length = 1 := rfl
  unfold decompose
  rw [hcd, hl, if_neg (show ¬ ceil_div 1 1 = 0 by norm_num [ceil_div])]
  rw [show List.range 2 = [0, 1] from rfl, List.foldl_cons, hstep0, foldl_decompStep_none,
    Option.none_bind]

/-- C2 (amended): an input containing an all-zero chunk makes the
decomposition quantizer fail with the zero-scale error raised by sym_quant
(the zero chunk maximum produces zero thresholds, band 0 has a nonzero
count, and the per-chunk scale tensor contains a zero); the quantizer does
not complete and returns no output. -/
theorem C2_zero_chunk_amended (p : BandPolicy) (D cs b nCh : ℕ) (hs : List (List ℚ))
    (hD : 1 ≤ D) (hn : 1 ≤ nCh)
    (hzc : ∃ ch ∈ lmChunks cs nCh hs, ∀ r ∈ ch, ∀ x ∈ r, x = 0) :
    decompose p D cs b nCh hs = none := by
  obtain ⟨ch0, hmem, hz⟩ := hzc
  have htm0 : chunkTmax ch0 = 0 := chunkTmax_zero ch0 hz
  have hch : ¬ ceil_div hs.length cs = 0 := by
    rw [← lmChunks_length cs nCh hs]
    exact (List.length_pos.mpr (List.ne_nil_of_mem hmem)).ne'
  have hcb0 : chunkBandCount p D 0 nCh ch0 = nCh := by
    unfold chunkBandCount
    rw [List.filter_eq_self.mpr (fun j _ => zero_chunk_mask0 p D ch0 htm0 j)]
    exact List.length_range nCh
  have hcount : ¬ bandCount p D 0 nCh (lmChunks cs nCh hs) = 0 := by
    have hle : nCh ≤ bandCount p D 0 nCh (lmChunks cs nCh hs) := by
      unfold bandCount
      have := List.single_le_sum (l := (lmChunks cs nCh hs).map (chunkBandCount p D 0 nCh))
        (fun x _ => Nat.zero_le x) (chunkBandCount p D 0 nCh ch0)
        (List.mem_map_of_mem _ hmem)
      rw [hcb0] at this
      exact this
    omega
  have hscale : (lmChunks cs nCh hs).any (fun ch => decide (bandScale D 0 b ch = 0)) = true :=
    List.any_eq_true.mpr ⟨ch0, hmem, by simp [bandScale, threshold, htm0, zero_div]⟩
  unfold decompose
  rw [if_neg hch]
  cases D with
  | zero => exact absurd hD (by norm_num)
  | succ d =>
    rw [List.range_succ_eq_map, List.foldl_cons]
    have hstep : decompStep p (d + 1) b nCh (lmChunks cs nCh hs)
        (some (zerosLike (lmChunks cs nCh hs))) 0 = none := by
      simp only [decompStep]
      rw [if_neg hcount, if_pos hscale]
    rw [hstep, foldl_decompStep_none, Option.none_bind]

/-- C2 witness: the amended theorem applied to a two-row all-zero input with
chunk size 2, three bands and one channel. -/
theorem C2_zero_chunk_witness :
    ((1 : ℕ) ≤ 3 ∧ (1 : ℕ) ≤ 1
      ∧ (∃ ch ∈ lmChunks 2 1 [[(0 : ℚ)], [(0 : ℚ)]], ∀ r ∈ ch, ∀ x ∈ r, x = 0))
    ∧ decompose BandPolicy.closedTop 3 2 4 1 [[(0 : ℚ)], [(0 : ℚ)]] = none := by
  have hzc : ∃ ch ∈ lmChunks 2 1 [[(0 : ℚ)], [(0 : ℚ)]], ∀ r ∈ ch, ∀ x ∈ r, x = 0 := by
    refine ⟨[[(0 : ℚ)], [(0 : ℚ)]], ?_, ?_⟩
    · norm_num [lmChunks, ceil_div, padRows, chunkRows]
    · intro r hr x hx
      simp only [List.mem_cons, List.not_mem_nil, or_false] at hr
      rcases hr with h | h <;> (rw [h] at hx; simpa using hx)
  exact ⟨⟨by norm_num, by norm_num, hzc⟩,
    C2_zero_chunk_amended BandPolicy.closedTop 3 2 4 1 [[(0 : ℚ)], [(0 : ℚ)]]
      (by norm_num) (by norm_num) hzc⟩

/-! Claim C5. -/

lemma bandMask_d1 (p : BandPolicy) (ch : List (List ℚ)) (j : ℕ) :
    bandMask p 1 0 (chunkTmax ch) (chunkCmax ch j) = true := by
  cases p <;> simp [bandMask, threshold, chunkCmax_le_tmax ch j]

lemma bandScale_d1 (b : ℕ) (ch : List (List ℚ)) :
    bandScale 1 0 b ch = chunkTmax ch / qMaxQ b := by
  unfold bandScale threshold
  norm_num

lemma bandChunk_d1 (b : ℕ) (p : BandPolicy) (ch : List (List ℚ)) :
    bandChunk p 1 0 b ch
      = ch.map (fun r => r.map (fun x =>
          symQuant1 x (chunkTmax ch / qMaxQ b) b * (chunkTmax ch / qMaxQ b))) := by
  unfold bandChunk
  rw [bandScale_d1]
  apply List.map_congr_left
  intro r _
  rw [whereRow_all_true _ (fun j => bandMask_d1 p ch j) r 0]

/-- C5: with decomposition factor 1 (and no bias removal, as in the LM
head), the decomposition output is exactly the direct per-chunk-max-scale
symmetric quantize-dequantize of the padded tensor, including the failure
behaviour on a zero scale. -/
theorem C5_factor_one_direct (p : BandPolicy) (cs b nCh : ℕ) (hs : List (List ℚ))
    (hcs : 1 ≤ cs) (hrows : 1 ≤ hs.length) (hnCh : 1 ≤ nCh) :
    decompose p 1 cs b nCh hs = directQD cs b nCh hs := by
  have hch : ¬ ceil_div hs.length cs = 0 := by
    have := ceil_div_pos hs.length cs hrows hcs
    omega
  have hcb : ∀ ch : List (List ℚ), chunkBandCount p 1 0 nCh ch = nCh := by
    intro ch
    unfold chunkBandCount
    rw [List.filter_eq_self.mpr (fun j _ => bandMask_d1 p ch j)]
    exact List.length_range nCh
  have hbc : bandCount p 1 0 nCh (lmChunks cs nCh hs)
      = (lmChunks cs nCh hs).length * nCh := by
    unfold bandCount
    rw [List.map_congr_left (fun ch _ => hcb ch), sum_map_const]
  have hbc0 : ¬ bandCount p 1 0 nCh (lmChunks cs nCh hs) = 0 := by
    rw [hbc, lmChunks_length]
    have := ceil_div_pos hs.length cs hrows hcs
    exact Nat.mul_ne_zero (by omega) (by omega)
  have hsha : ((lmChunks cs nCh hs).map (bandChunk p 1 0 b)).map
      (fun ch => ch.map List.length)
      = (lmChunks cs nCh hs).map (fun ch => ch.map List.length) :=
    bandChunks_sha p 1 0 b (lmChunks cs nCh hs)
  have hcnt : countSum p 1 nCh (lmChunks cs nCh hs) = nCh * ceil_div hs.length cs := by
    rw [countSum_eq p 1 nCh (lmChunks cs nCh hs) (le_refl 1), lmChunks_length, Nat.mul_comm]
  by_cases hz : (lmChunks cs nCh hs).any
      (fun ch => decide (chunkTmax ch / qMaxQ b = 0)) = true
  · have hfold : (List.range 1).foldl (decompStep p 1 b nCh (lmChunks cs nCh hs))
        (some (zerosLike (lmChunks cs nCh hs))) = none := by
      rw [show List.range 1 = [0] from rfl, List.foldl_cons, List.foldl_nil]
      simp only [decompStep]
      rw [if_neg hbc0]
      simp only [bandScale_d1]
      rw [if_pos hz]
    unfold decompose directQD
    rw [if_neg hch, if_neg hch, hfold, if_pos hz, Option.none_bind]
  · have hfold : (List.range 1).foldl (decompStep p 1 b nCh (lmChunks cs nCh hs))
        (some (zerosLike (lmChunks cs nCh hs)))
        = some ((lmChunks cs nCh hs).map (bandChunk p 1 0 b)) := by
      rw [show List.range 1 = [0] from rfl, List.foldl_cons, List.foldl_nil]
      simp only [decompStep]
      rw [if_neg hbc0]
      simp only [bandScale_d1]
      rw [if_neg hz, addTen_zeros _ _ hsha]
    unfold decompose directQD
    rw [if_neg hch, if_neg hch, hfold, if_neg hz, Option.some_bind, if_pos hcnt,
      show List.map (bandChunk p 1 0 b) (lmChunks cs nCh hs)
          = List.map (fun ch => ch.map (fun r => r.map (fun x =>
              symQuant1 x (chunkTmax ch / qMaxQ b) b * (chunkTmax ch / qMaxQ b))))
            (lmChunks cs nCh hs)
        from List.map_congr_left (fun ch _ => bandChunk_d1 b p ch)]

/-- C5 witness: the theorem applied to a concrete 2 by 2 input with chunk
size 2 and 4 bits. -/
theorem C5_factor_one_direct_witness :
    ((1 : ℕ) ≤ 2 ∧ (1 : ℕ) ≤ ([[(7 : ℚ), 7], [7, 7]] : List (List ℚ)).length ∧ (1 : ℕ) ≤ 2)
    ∧ decompose BandPolicy.closedTop 1 2 4 2 [[(7 : ℚ), 7], [7, 7]]
        = directQD 2 4 2 [[(7 : ℚ), 7], [7, 7]] :=
  ⟨⟨by norm_num, by norm_num, by norm_num⟩,
    C5_factor_one_direct BandPolicy.closedTop 2 4 2 [[(7 : ℚ), 7], [7, 7]]
      (by norm_num) (by norm_num) (by norm_num)⟩

/-! Claim C8. -/

/-- C8: whenever the decomposition quantizer returns an output, the output
has exactly the input row count (padding to chunks times chunk_size is
trimmed away) and every output row has the channel width of the input. -/
theorem C8_pad_trim_shape (p : BandPolicy) (D cs b nCh : ℕ) (hs : List (List ℚ))
    (out : List (List ℚ)) (hcs : 1 ≤ cs) (hrect : ∀ r ∈ hs, r.length = nCh)
    (h : decompose p D cs b nCh hs = some out) :
    out.length = hs.length ∧ ∀ r ∈ out, r.length = nCh := by
  unfold decompose at h
  by_cases hch : ceil_div hs.length cs = 0
  · rw [if_pos hch] at h
    simp at h
  · rw [if_neg hch] at h
    cases hred : (List.range D).foldl (decompStep p D b nCh (lmChunks cs nCh hs))
        (some (zerosLike (lmChunks cs nCh hs))) with
    | none =>
      rw [hred, Option.none_bind] at h
      simp at h
    | some r =>
      rw [hred, Option.some_bind] at h
      by_cases hcnt : countSum p D nCh (lmChunks cs nCh hs)
          = nCh * ceil_div hs.length cs
      · rw [if_pos hcnt] at h
        have hout : out = r.flatten.take hs.length := (Option.some.inj h).symm
        have hsha : r.map (fun ch => ch.map List.length)
            = (lmChunks cs nCh hs).map (fun ch => ch.map List.length) :=
          foldl_decompStep_sha p D b nCh (lmChunks cs nCh hs) (List.range D)
            (zerosLike (lmChunks cs nCh hs)) r (zerosLike_sha _) hred
        have hple : hs.length ≤ ceil_div hs.length cs * cs := le_ceil_div_mul _ _ hcs
        have hpad : (padRows hs nCh (ceil_div hs.length cs * cs)).length
            = ceil_div hs.length cs * cs := padRows_length _ _ _ hple
        have hflat : (lmChunks cs nCh hs).flatten
            = padRows hs nCh (ceil_div hs.length cs * cs) := by
          unfold lmChunks
          rw [chunkRows_flatten, List.take_of_length_le (le_of_eq hpad)]
        have hwid : r.flatten.map List.length
            = (padRows hs nCh (ceil_div hs.length cs * cs)).map List.length := by
          rw [← hflat, List.map_flatten, List.map_flatten, hsha]
        have hlen : r.flatten.length = ceil_div hs.length cs * cs := by
          have := congrArg List.length hwid
          rw [List.length_map, List.length_map] at this
          rw [this, hpad]
        constructor
        · rw [hout, List.length_take, hlen]
          omega
        · intro row hrow
          rw [hout] at hrow
          have hrow2 : row ∈ r.flatten := List.take_subset _ _ hrow
          have hmem : row.length ∈ r.flatten.map List.length := List.mem_map_of_mem _ hrow2
          rw [hwid] at hmem
          obtain ⟨r2, hr2, hlen2⟩ := List.mem_map.mp hmem
          rw [← hlen2]
          exact padRows_widths hs nCh _ hrect r2 hr2
      · rw [if_neg hcnt] at h
        simp at h

/-- C8 witness: the theorem applied to a one-row input, whose decomposition
output is computed explicitly. -/
theorem C8_pad_trim_shape_witness :
    ((1 : ℕ) ≤ 1 ∧ (∀ r ∈ [[(7 : ℚ)]], r.length = 1)
      ∧ decompose BandPolicy.closedTop 1 1 4 1 [[(7 : ℚ)]] = some [[7]])
    ∧ ([[(7 : ℚ)]] : List (List ℚ)).length = ([[(7 : ℚ)]] : List (List ℚ)).length
    ∧ ∀ r ∈ ([[(7 : ℚ)]] : List (List ℚ)), r.length = 1 := by
  have hrect : ∀ r ∈ [[(7 : ℚ)]], r.length = 1 := by
    intro r hr
    simp only [List.mem_singleton] at hr
    simp [hr]
  have heval : decompose BandPolicy.closedTop 1 1 4 1 [[(7 : ℚ)]] = some [[7]] := by
    have hcd : lmChunks 1 1 [[(7 : ℚ)]] = [[[7]]] := by
      norm_num [lmChunks, ceil_div, padRows, chunkRows]
    unfold decompose
    rw [hcd]
    norm_num [ceil_div, decompStep, bandCount, chunkBandCount, bandMask,
      threshold, chunkTmax, chunkCmax, rowMaxAbs, bandScale, qMaxQ, List.filter,
      List.range_succ, zerosLike, addTen, addMat, bandChunk, whereRow, symQuant1, clampQ,
      eps, roundEven, abs_of_pos, countSum, Finset.sum_range_one, sym_quant, sym_dequant]
  have h := C8_pad_trim_shape BandPolicy.closedTop 1 1 4 1 [[(7 : ℚ)]] [[7]]
    (by norm_num) hrect heval
  exact ⟨⟨by norm_num, hrect, heval⟩, by simp, h.2⟩

/-- C4 witness: band 1 of a two-band decomposition with tensor max 1 and
channel max 1. -/
theorem C4_band_intervals_witness :
    ((1 : ℕ) ≤ 2 ∧ (1 : ℕ) < 2)
    ∧ ((bandMask BandPolicy.noElse 2 1 1 1 = true ↔
        (if (1 : ℕ) = 0 then (1 : ℚ) ≤ threshold 1 2 0
          else (1 : ℚ) ∈ Set.Ioc (threshold 1 2 (1 - 1)) (threshold 1 2 1)))
      ∧ (bandMask BandPolicy.closedTop 2 1 1 1 = true ↔
        (if (1 : ℕ) = 0 then (1 : ℚ) ≤ threshold 1 2 0
          else if (1 : ℕ) = 2 - 1 then threshold 1 2 (1 - 1) < 1
          else (1 : ℚ) ∈ Set.Ioc (threshold 1 2 (1 - 1)) (threshold 1 2 1)))
      ∧ (∀ (mf : ℕ → Bool) (r : List ℚ) (j : ℕ),
          (whereRow mf 0 r).getD j 0 = if j < r.length ∧ mf j then r.getD j 0 else 0)) :=
  ⟨⟨by norm_num, by norm_num⟩, C4_band_intervals 2 1 1 1 (by norm_num) (by norm_num)⟩

/-! Claim C9. -/

/-- C9: a forward pass reads the supplied calibration fields (per-chunk
channel biases, per-chunk tensor maxima, per-channel group indices, and
key/value scales) but never mutates them: after the pass every supplied
field holds its previous value; only the separate _cal output fields are
written. -/
theorem C9_calibration_readonly (st : AttnCalibState) (b srcLen chunks : ℕ)
    (keyStates valueStates : List (List (List ℚ)))
    (queryChunks scoreChunks : List (List (List (List ℚ)))) :
    (attnCalibForward st b srcLen chunks keyStates valueStates
        queryChunks scoreChunks).1.kChBias = st.kChBias
    ∧ (attnCalibForward st b srcLen chunks keyStates valueStates
        queryChunks scoreChunks).1.qChBias = st.qChBias
    ∧ (attnCalibForward st b srcLen chunks keyStates valueStates
        queryChunks scoreChunks).1.qTmax = st.qTmax
    ∧ (attnCalibForward st b srcLen chunks keyStates valueStates
        queryChunks scoreChunks).1.sTmax = st.sTmax
    ∧ (attnCalibForward st b srcLen chunks keyStates valueStates
        queryChunks scoreChunks).1.qGroupIndex = st.qGroupIndex
    ∧ (attnCalibForward st b srcLen chunks keyStates valueStates
        queryChunks scoreChunks).1.sGroupIndex = st.sGroupIndex
    ∧ (attnCalibForward st b srcLen chunks keyStates valueStates
        queryChunks scoreChunks).1.kScale = st.kScale
    ∧ (attnCalibForward st b srcLen chunks keyStates valueStates
        queryChunks scoreChunks).1.vScale = st.vScale :=
  ⟨rfl, rfl, rfl, rfl, rfl, rfl, rfl, rfl⟩

end Tender
